import Mathlib

/-!
Verification of the `parallelvicd` package: a shallow embedding of
`parallelvicd/util.py` and `parallelvicd/drive.py` in Lean 4, together with
proofs of functional properties of the workload partitioner, the
manager/worker coordination round, and the role-confinement wrapper.

Python integers are modelled as `Int`; Python floor division `//` and
modulo `%` are `Int.fdiv` and `Int.fmod` (which agree with Python's
semantics for every sign of the operands).  Numpy 1-d arrays are modelled
as Lean lists; numeric scalars that may be NaN are modelled by the
two-constructor type `Val` below, since the coordination layer only ever
inspects NaN-ness of array elements (via `numpy.isnan(...).all()`) and
moves array contents around verbatim — it performs no IEEE arithmetic.
The MPI substrate (pypar) is an external collaborator: a broadcast is
modelled by recording the broadcast payload in a trace, a `receive` from
any source by consuming the next element of a given inbox list, and a
`send` by recording a `SendOp`.
-/

namespace Parallelvicd

/-! ## util.py -/

/-- `balance(ntask, nworker, idxworker)` from `parallelvicd/util.py`:
contiguous near-equal partition of `[0, ntask)` into `nworker` chunks,
returning the zero-length tail slice `(ntask, ntask)` when
`idxworker >= nworker`. -/
def balance (ntask nworker idxworker : Int) : Int × Int :=
  if idxworker ≥ nworker then
    (ntask, ntask)
  else
    let divisor := Int.fdiv ntask nworker
    let remainder := Int.fmod ntask nworker
    if idxworker < remainder then
      let low := idxworker * (divisor + 1)
      (low, low + divisor + 1)
    else
      let low := remainder + idxworker * divisor
      (low, low + divisor)

/-- `scanl(iterable, f, starting)` from `parallelvicd/util.py`, specialised
to integer lists (the only use in the package is with `operator.add` and
starting value `0`, via the defaults). -/
def scanl (l : List Int) (f : Int → Int → Int := fun a b => a + b)
    (starting : Int := 0) : List Int :=
  match l with
  | [] => [starting]
  | x :: xs => starting :: scanl xs f (f starting x)

/-- `balance_gatherv(ntask, nworker)` from `parallelvicd/util.py`:
per-worker counts and prefix-sum offsets for a gather-style interface.
(In Python, `nworker = 0` raises `ZeroDivisionError`; all claims about
this function assume `nworker ≥ 1`, where `Int.fdiv`/`Int.fmod` agree
with Python.) -/
def balance_gatherv (ntask nworker : Int) : List Int × List Int :=
  let divisor := Int.fdiv ntask nworker
  let remainder := Int.fmod ntask nworker
  let counts := (List.range nworker.toNat).map
    (fun (i : Nat) => divisor + if (i : Int) < remainder then 1 else 0)
  let offsets := (scanl counts).dropLast
  (counts, offsets)

/-- `balance_gatherv_skipmanager(ntask, nworker, managerrank)` from
`parallelvicd/util.py`.  The Python body reads `rawoffsets[managerrank]`,
which raises `IndexError` when `managerrank ≥ len(rawoffsets)`; that
fallible subscript is modelled by `getElem?`, so the function returns
`none` exactly where Python raises.  (`managerrank` is a list index; the
claims only concern `managerrank ≥ 0`, so it is taken as `Nat`.) -/
def balance_gatherv_skipmanager (ntask nworker : Int) (managerrank : Nat := 0) :
    Option (List Int × List Int) :=
  let raw := balance_gatherv ntask nworker
  let rawcounts := raw.1
  let rawoffsets := raw.2
  match rawoffsets[managerrank]? with
  | none => none
  | some off =>
      some (rawcounts.take managerrank ++ [0] ++ rawcounts.drop managerrank,
            rawoffsets.take managerrank ++ [off] ++ rawoffsets.drop managerrank)

/-- Insertion of one element at position `m` of a list — the list surgery
`l[:m] + [x] + l[m:]` performed by `balance_gatherv_skipmanager`; used to
state what that function returns. -/
def insertAt {α : Type} (l : List α) (m : Nat) (x : α) : List α :=
  l.take m ++ [x] ++ l.drop m

/-! ## Arithmetic companion to the partitioner -/

/-- The boundary sequence of the partition, over naturals:
`Lb n w i` is the low index of chunk `i` (and `Lb n w w = n`). -/
def Lb (n w i : Nat) : Nat := i * (n / w) + min i (n % w)

/-! ## drive.py: values, messages, buffers -/

/-- A numpy scalar as seen by the coordination layer: it is either NaN or
some ordinary numeric value (carried opaquely as an integer code, since
the layer never computes with it — it only tests NaN-ness and copies). -/
inductive Val where
  | nan : Val
  | num (x : Int) : Val
deriving DecidableEq

/-- `numpy.isnan` on one element. -/
def Val.isNaN : Val → Bool
  | .nan => true
  | .num _ => false

/-- `numpy.isnan(a).all()`: true iff every element is NaN (vacuously true
on an empty array, as in numpy). -/
def allNaN (a : List Val) : Bool := a.all Val.isNaN

/-- Python slice `data[lo:hi]` for integer bounds as used with the
partitioner's nonneg bounds (Python's clamping of over-long bounds agrees
with `List.take`/`List.drop` clamping). -/
def pySlice (data : List Val) (lo hi : Int) : List Val :=
  (data.take hi.toNat).drop lo.toNat

/-- `buf[lo : lo+len]` read on a list: `len` elements starting at `lo`. -/
def extract (buf : List Val) (lo len : Nat) : List Val :=
  (buf.drop lo).take len

/-- numpy slice assignment `buf[sl : sl+len(pay)] = pay` (requires
`sl + len(pay) ≤ len(buf)` in numpy; the model clamps like
`take`/`drop`, which agrees with numpy in the in-bounds regime the
proofs work in). -/
def setSlice (buf : List Val) (sl : Nat) (pay : List Val) : List Val :=
  buf.take sl ++ pay ++ buf.drop (sl + pay.length)

/-- `pypar.receive(..., buffer=buf)`: the incoming message overwrites the
prefix of the preallocated buffer, leaving the tail untouched (pypar
errors out when the message exceeds the buffer; the claims stay in the
in-bounds regime). -/
def writeInto (buf msg : List Val) : List Val :=
  msg.take buf.length ++ buf.drop msg.length

/-- A tagged point-to-point reply as received by the manager (the manager
receives with `tag=self.tag_data`, so the inbox holds only matching-tag
messages; what the code consumes is the payload and the source rank from
the returned status). -/
structure Msg where
  source : Int
  payload : List Val
deriving DecidableEq

/-- A point-to-point send emitted by a worker:
`pypar.send(res, manager_rank, tag=tag_data, ...)`. -/
structure SendOp where
  dest : Int
  tag : Int
  payload : List Val
deriving DecidableEq

/-! ## drive.py: ManagerWorkerPair -/

/-- The rank-to-worker-id adjustment used twice in `drive.py`:
`rank - (1 if rank > manager_rank else 0)` (worker-id assignment in
`__init__`, and the manager's inverse lookup of a reply's source). -/
def rankToWorkerId (rank manager_rank : Int) : Int :=
  rank - (if rank > manager_rank then 1 else 0)

/-- The rank occupied by worker-id `i` when the manager sits at rank
`manager_rank`: the inverse of `rankToWorkerId` on worker ranks.  Used to
phrase hypotheses about where replies come from. -/
def workerRank (manager_rank : Int) (i : Nat) : Int :=
  if (i : Int) < manager_rank then (i : Int) else (i : Int) + 1

/-- The `slice_table` built in `ManagerWorkerPair.__init__`:
`[balance(work_size, nworkers, i) for i in xrange(nworkers)]`. -/
def sliceTable (work_size : Nat) (nworkers : Int) : List (Int × Int) :=
  (List.range nworkers.toNat).map
    (fun (i : Nat) => balance (work_size : Int) nworkers (i : Int))

/-- The rank-independent per-process fields computed by
`ManagerWorkerPair.__init__` (the parts every process computes before
branching on its role).  Buffers are threaded explicitly through the
manager functions below rather than stored, so that state transitions
are pure. -/
structure Session where
  size : Int
  rank : Int
  nworkers : Int
  ins_size : Nat
  manager_rank : Int
  ismanager : Bool
  work_size : Nat
  slice_table : List (Int × Int)
  tag_data : Int
deriving DecidableEq

/-- `ManagerWorkerPair.__init__` up to the role branch: raises
`RuntimeError("No workers")` when the process-group size is ≤ 1, before
any partition table, worker id or buffer is computed; otherwise computes
the shared session fields.  `size` and `rank` are the values reported by
`pypar.size()`/`pypar.rank()`; `work_size` is `data.shape[0]`. -/
def initSession (size rank : Int) (ins_size : Nat) (work_size : Nat)
    (manager_rank : Int := 0) (tag_data : Int := 0xda7a) :
    Except String Session :=
  if size ≤ 1 then
    .error "No workers"
  else
    let nworkers := size - 1
    .ok { size := size
          rank := rank
          nworkers := nworkers
          ins_size := ins_size
          manager_rank := manager_rank
          ismanager := rank == manager_rank
          work_size := work_size
          slice_table := sliceTable work_size nworkers
          tag_data := tag_data }

/-- The manager's mutable buffers: `res_buf` (result assembly buffer of
length `work_size`) and `managerrecvbuf` (scratch receive buffer sized to
the first — largest — chunk). -/
structure MgrState where
  res_buf : List Val
  recvbuf : List Val
deriving DecidableEq

/-- One iteration of the manager's receive loop in
`ManagerWorkerPair.manager`: receive one tagged message into
`managerrecvbuf`, map its source rank back to a worker id, and copy the
first `sh - sl` received elements into `res_buf[sl:sh]`.  (Python's
`slice_table[thisworker]` raises on an out-of-range worker id; the model
uses `getD` — all claims' hypotheses keep the id inside the table.) -/
def managerStep (manager_rank : Int) (slice_table : List (Int × Int))
    (st : MgrState) (m : Msg) : MgrState :=
  let recvbuf := writeInto st.recvbuf m.payload
  let thisworker := rankToWorkerId m.source manager_rank
  let sl := (slice_table.getD thisworker.toNat (0, 0)).1
  let sh := (slice_table.getD thisworker.toNat (0, 0)).2
  { res_buf := setSlice st.res_buf sl.toNat (recvbuf.take (sh - sl).toNat)
    recvbuf := recvbuf }

/-- The manager's receive loop (`while work_done < self.nworkers`),
consuming the given inbox of received messages one per iteration (the
loop performs exactly `nworkers` receives; theorems take an inbox of that
length). -/
def managerLoop (manager_rank : Int) (slice_table : List (Int × Int))
    (st : MgrState) (msgs : List Msg) : MgrState :=
  msgs.foldl (managerStep manager_rank slice_table) st

/-- What one call of `ManagerWorkerPair.manager` does: the broadcast it
performs, the buffer state it leaves behind, and the interlude result. -/
structure ManagerResult (ι : Type) where
  broadcasts : List (List Val)
  state : MgrState
  ires : Option ι
deriving DecidableEq

/-- `ManagerWorkerPair.manager(ins, interlude_callback, ...)`: broadcast
`ins`, run the interlude if one was supplied (`callable(...)` is modelled
by the `Option`), then run the receive loop; returns the interlude
result. -/
def manager {ι : Type} (s : Session) (st : MgrState) (ins : List Val)
    (interlude : Option (Unit → ι)) (msgs : List Msg) : ManagerResult ι :=
  { broadcasts := [ins]
    state := managerLoop s.manager_rank s.slice_table st msgs
    ires := interlude.map (fun f => f ())
  }

/-- `ManagerWorkerPair.eval(ins, ...)`: on the manager, run a full round
and return `(res_buf, interlude_result)`; on a worker, return
`(None, None)` untouched.  The second and third components expose the
buffer state after the call and the trace of broadcasts performed. -/
def eval {ι : Type} (s : Session) (st : MgrState) (ins : List Val)
    (interlude : Option (Unit → ι)) (msgs : List Msg) :
    (Option (List Val) × Option ι) × MgrState × List (List Val) :=
  if s.ismanager then
    let r := manager s st ins interlude msgs
    ((some r.state.res_buf, r.ires), r.state, r.broadcasts)
  else
    ((none, none), st, [])

/-- `ManagerWorkerPair.terminate()`: on the manager, broadcast an
all-NaN instruction of length `ins_size`; on a worker, do nothing.
Returns the trace of broadcasts performed. -/
def terminate (s : Session) : List (List Val) :=
  if s.ismanager then [List.replicate s.ins_size Val.nan] else []

/-- `ManagerWorkerPair.worker`: the read-evaluate-send loop, driven by
the stream of instructions the successive broadcasts deliver into
`ins_buf`.  Returns `some sends` — the replies emitted, in order — when
the loop exits normally on an all-NaN instruction; `none` means the
stream ended with the worker still blocked on its next broadcast
receive. -/
def workerLoopRun (work_callback : List Val → List Val → List Val)
    (data : List Val) (mylow myhigh : Int) (manager_rank tag_data : Int) :
    List (List Val) → Option (List SendOp)
  | [] => none
  | ins :: rest =>
      if allNaN ins then
        some []
      else
        match workerLoopRun work_callback data mylow myhigh manager_rank
            tag_data rest with
        | none => none
        | some sends =>
            some ({ dest := manager_rank
                    tag := tag_data
                    payload := work_callback ins (pySlice data mylow myhigh) }
                  :: sends)

/-- `ManagerWorkerPair.confineto(function, rankpredicate, otherwise)`:
wrap `function` so its body runs only where the rank predicate holds; the
default predicate confines to the manager rank.  `none` in the result
models Python's `None` return when no function gets called;
`callable(otherwise)` is modelled by the `Option`. -/
def confineto {α β : Type} (self_rank manager_rank : Int) (function : α → β)
    (rankpredicate : Option (Int → Bool) := none)
    (otherwise : Option (α → β) := none) : α → Option β :=
  let pred : Int → Bool :=
    match rankpredicate with
    | none => fun rank => rank == manager_rank
    | some p => p
  fun args =>
    if pred self_rank then
      some (function args)
    else
      match otherwise with
      | some g => some (g args)
      | none => none

/-- Well-formed reply for the manager's gather phase: the message of
worker `j`, sent from that worker's rank, carrying payload `p j`. -/
def wfMsg (nw : Nat) (manager_rank : Int) (p : Nat → List Val) (m : Msg) : Prop :=
  ∃ j, j < nw ∧ m = { source := workerRank manager_rank j, payload := p j }

/-- A concrete two-process worker-side session (rank 1, manager rank 0),
as `initSession 2 1 1 2` constructs it; used in witnesses. -/
def sessionW : Session :=
  { size := 2
    rank := 1
    nworkers := 1
    ins_size := 1
    manager_rank := 0
    ismanager := false
    work_size := 2
    slice_table := sliceTable 2 1
    tag_data := 0xda7a }

/-- A concrete two-process manager-side session (rank 0, manager rank 0),
as `initSession 2 0 2 0` constructs it; used in witnesses and
counterexamples. -/
def sessionM : Session :=
  { size := 2
    rank := 0
    nworkers := 1
    ins_size := 2
    manager_rank := 0
    ismanager := true
    work_size := 0
    slice_table := sliceTable 0 1
    tag_data := 0xda7a }

/-- A concrete three-process manager-side session (manager rank 0, two
workers, 3 data items), as `initSession 3 0 1 3` constructs it; used in
witnesses. -/
def sessionM3 : Session :=
  { size := 3
    rank := 0
    nworkers := 2
    ins_size := 1
    manager_rank := 0
    ismanager := true
    work_size := 3
    slice_table := sliceTable 3 2
    tag_data := 0xda7a }

/-! ## Theorems: partition boundary arithmetic -/

theorem Lb_zero (n w : Nat) : Lb n w 0 = 0 := by
  simp [Lb]

theorem Lb_last (n w : Nat) (hw : 1 ≤ w) : Lb n w w = n := by
  have hr : n % w < w := Nat.mod_lt _ hw
  have := Nat.div_add_mod n w
  simp only [Lb, min_eq_right (Nat.le_of_lt hr)]
  calc w * (n / w) + n % w = n := by omega

theorem Lb_mono (n w : Nat) : Monotone (Lb n w) := by
  intro i j hij
  unfold Lb
  have h1 : i * (n / w) ≤ j * (n / w) := Nat.mul_le_mul_right _ hij
  have h2 : min i (n % w) ≤ min j (n % w) := min_le_min hij le_rfl
  omega

/-- Bridge: on natural inputs with `i < w`, `balance` computes the
boundary pair `(Lb n w i, Lb n w (i+1))`. -/
theorem balance_eq_Lb (n w i : Nat) (hi : i < w) :
    balance (n : Int) (w : Int) (i : Int) = ((Lb n w i : Int), (Lb n w (i + 1) : Int)) := by
  have hw : 0 < w := Nat.lt_of_le_of_lt (Nat.zero_le _) hi
  have hnotge : ¬ ((i : Int) ≥ (w : Int)) := by
    simp only [ge_iff_le, not_le]
    exact_mod_cast hi
  have hfd : Int.fdiv (n : Int) (w : Int) = ((n / w : Nat) : Int) := by
    rw [Int.fdiv_eq_ediv _ (by positivity)]
    exact_mod_cast (Int.ofNat_ediv n w).symm
  have hfm : Int.fmod (n : Int) (w : Int) = ((n % w : Nat) : Int) := by
    rw [Int.fmod_eq_emod _ (by positivity)]
    exact_mod_cast (Int.ofNat_emod n w).symm
  unfold balance
  rw [if_neg hnotge]
  simp only [hfd, hfm]
  by_cases hir : i < n % w
  · rw [if_pos (by exact_mod_cast hir)]
    have hmin1 : min i (n % w) = i := min_eq_left (Nat.le_of_lt hir)
    have hmin2 : min (i + 1) (n % w) = i + 1 := min_eq_left hir
    unfold Lb
    rw [hmin1, hmin2]
    simp only [Prod.mk.injEq]
    constructor <;> (push_cast; ring)
  · rw [if_neg (by exact_mod_cast hir)]
    have hri : n % w ≤ i := Nat.le_of_not_lt hir
    have hmin1 : min i (n % w) = n % w := min_eq_right hri
    have hmin2 : min (i + 1) (n % w) = n % w :=
      min_eq_right (Nat.le_succ_of_le hri)
    unfold Lb
    rw [hmin1, hmin2]
    simp only [Prod.mk.injEq]
    constructor <;> (push_cast; ring)

/-- Size of chunk `i`: one extra item for the first `n % w` chunks. -/
theorem Lb_succ (n w i : Nat) :
    Lb n w (i + 1) = Lb n w i + n / w + (if i < n % w then 1 else 0) := by
  unfold Lb
  have hmul : (i + 1) * (n / w) = i * (n / w) + n / w := by ring
  rw [hmul]
  by_cases hir : i < n % w
  · rw [if_pos hir, min_eq_left (Nat.le_of_lt hir), min_eq_left hir]
    omega
  · have hri : n % w ≤ i := Nat.le_of_not_lt hir
    rw [if_neg hir, min_eq_right hri, min_eq_right (Nat.le_succ_of_le hri)]
    omega

/-- Interval-location: any `k` between `L 0` and `L w` lies in some
half-open cell `[L i, L (i+1))` with `i < w`. -/
theorem exists_cell (L : Nat → Nat) (w k : Nat) (hk : L 0 ≤ k) (hkw : k < L w) :
    ∃ i, i < w ∧ L i ≤ k ∧ k < L (i + 1) := by
  induction w with
  | zero => omega
  | succ m ih =>
      by_cases hm : L m ≤ k
      · exact ⟨m, Nat.lt_succ_self m, hm, hkw⟩
      · obtain ⟨i, hi, h1, h2⟩ := ih (Nat.lt_of_not_le hm)
        exact ⟨i, Nat.lt_succ_of_lt hi, h1, h2⟩

theorem cell_unique (L : Nat → Nat) (hmono : Monotone L) (k i j : Nat)
    (hi : L i ≤ k ∧ k < L (i + 1)) (hj : L j ≤ k ∧ k < L (j + 1)) : i = j := by
  by_contra hne
  rcases Nat.lt_or_ge i j with h | h
  · have : L (i + 1) ≤ L j := hmono h
    omega
  · have hj' : j < i := by omega
    have : L (j + 1) ≤ L i := hmono hj'
    omega

theorem Lb_le_n (n w i : Nat) (hw : 1 ≤ w) (hi : i ≤ w) : Lb n w i ≤ n := by
  calc Lb n w i ≤ Lb n w w := Lb_mono n w hi
  _ = n := Lb_last n w hw

/-! ## Claim theorems: the partitioner -/

/-- C1: for every `totalTasks ≥ 0` and `workerCount ≥ 1`, the pairs
`balance totalTasks workerCount i` for `i ∈ [0, workerCount)` are
half-open ranges inside `[0, totalTasks)` that are pairwise disjoint and
together cover `[0, totalTasks)` exactly (every point lies in exactly one
range), and the first `totalTasks % workerCount` workers receive
`⌈totalTasks/workerCount⌉ = totalTasks/workerCount + 1` items while every
later worker receives `⌊totalTasks/workerCount⌋` items. -/
theorem balance_partitions (n w : Int) (hn : 0 ≤ n) (hw : 1 ≤ w) :
    (∀ i : Int, 0 ≤ i → i < w →
      0 ≤ (balance n w i).1 ∧ (balance n w i).1 ≤ (balance n w i).2 ∧
      (balance n w i).2 ≤ n ∧
      (balance n w i).2 - (balance n w i).1 =
        (if i < n % w then n / w + 1 else n / w)) ∧
    (∀ k : Int, 0 ≤ k → k < n →
      ∃! i : Int, (0 ≤ i ∧ i < w) ∧
        (balance n w i).1 ≤ k ∧ k < (balance n w i).2) := by
  obtain ⟨N, rfl⟩ := Int.eq_ofNat_of_zero_le hn
  obtain ⟨W, rfl⟩ := Int.eq_ofNat_of_zero_le (le_trans zero_le_one hw)
  have hW : 1 ≤ W := by exact_mod_cast hw
  constructor
  · intro i hi0 hiw
    obtain ⟨I, rfl⟩ := Int.eq_ofNat_of_zero_le hi0
    have hIW : I < W := by exact_mod_cast hiw
    rw [balance_eq_Lb N W I hIW]
    dsimp only
    have h1 : Lb N W I ≤ Lb N W (I + 1) := Lb_mono N W (Nat.le_add_right I 1)
    have h2 : Lb N W (I + 1) ≤ N := Lb_le_n N W (I + 1) hW hIW
    refine ⟨by positivity, by exact_mod_cast h1, by exact_mod_cast h2, ?_⟩
    rw [← Int.ofNat_ediv, ← Int.ofNat_emod]
    have hs := Lb_succ N W I
    by_cases hI : I < N % W
    · rw [if_pos (by exact_mod_cast hI)]
      rw [if_pos hI] at hs
      omega
    · rw [if_neg (by exact_mod_cast hI)]
      rw [if_neg hI] at hs
      omega
  · intro k hk0 hkn
    obtain ⟨K, rfl⟩ := Int.eq_ofNat_of_zero_le hk0
    have hKN : K < N := by exact_mod_cast hkn
    obtain ⟨I, hIW, h1, h2⟩ := exists_cell (Lb N W) W K
      (by rw [Lb_zero]; exact Nat.zero_le K)
      (by rw [Lb_last N W hW]; exact hKN)
    refine ⟨(I : Int), ⟨⟨by positivity, by exact_mod_cast hIW⟩, ?_, ?_⟩, ?_⟩
    · rw [balance_eq_Lb N W I hIW]
      dsimp only
      exact_mod_cast h1
    · rw [balance_eq_Lb N W I hIW]
      dsimp only
      exact_mod_cast h2
    · rintro j ⟨⟨hj0, hjW⟩, hjk1, hjk2⟩
      obtain ⟨J, rfl⟩ := Int.eq_ofNat_of_zero_le hj0
      have hJW : J < W := by exact_mod_cast hjW
      rw [balance_eq_Lb N W J hJW] at hjk1 hjk2
      dsimp only at hjk1 hjk2
      have hJ1 : Lb N W J ≤ K := by exact_mod_cast hjk1
      have hJ2 : K < Lb N W (J + 1) := by exact_mod_cast hjk2
      have : J = I :=
        cell_unique (Lb N W) (Lb_mono N W) K J I ⟨hJ1, hJ2⟩ ⟨h1, h2⟩
      exact_mod_cast congrArg (Nat.cast : Nat → Int) this

/-- Witness for C1 at `totalTasks = 7`, `workerCount = 3`, worker 1:
hypotheses hold and the range facts evaluate. -/
theorem balance_partitions_witness :
    (0 : Int) ≤ 7 ∧ (1 : Int) ≤ 3 ∧
    (0 ≤ (balance 7 3 1).1 ∧ (balance 7 3 1).1 ≤ (balance 7 3 1).2 ∧
      (balance 7 3 1).2 ≤ 7 ∧
      (balance 7 3 1).2 - (balance 7 3 1).1 =
        (if (1 : Int) < 7 % 3 then 7 / 3 + 1 else 7 / 3)) :=
  ⟨by decide, by decide,
    (balance_partitions 7 3 (by decide) (by decide)).1 1 (by decide) (by decide)⟩

/-- C9: for `totalTasks ≥ 0`, `workerCount ≥ 0` and
`workerIndex ≥ workerCount`, `balance` returns the zero-length pair
`(totalTasks, totalTasks)`; the guard fires before any division, so the
result is defined even when `workerCount = 0`. -/
theorem balance_out_of_range (n w i : Int) (_hn : 0 ≤ n) (_hw : 0 ≤ w)
    (hi : w ≤ i) : balance n w i = (n, n) := by
  unfold balance
  rw [if_pos hi]

/-- Witness for C9 at `totalTasks = 5`, `workerCount = 0`,
`workerIndex = 2`. -/
theorem balance_out_of_range_witness :
    (0 : Int) ≤ 5 ∧ (0 : Int) ≤ 0 ∧ (0 : Int) ≤ 2 ∧
    balance 5 0 2 = (5, 5) :=
  ⟨by decide, by decide, by decide,
    balance_out_of_range 5 0 2 (by decide) (by decide) (by decide)⟩

/-! ## Theorems: gatherv tables -/

theorem scanl_length (l : List Int) (f : Int → Int → Int) (s : Int) :
    (scanl l f s).length = l.length + 1 := by
  induction l generalizing s with
  | nil => rfl
  | cons x xs ih => simp [scanl, ih]

theorem insertAt_length {α : Type} (l : List α) (m : Nat) (x : α)
    (hm : m ≤ l.length) : (insertAt l m x).length = l.length + 1 := by
  simp [insertAt]
  omega

theorem insertAt_getElem_self {α : Type} (l : List α) (m : Nat) (x : α)
    (hm : m ≤ l.length) : (insertAt l m x)[m]? = some x := by
  have ht : (l.take m).length = m := List.length_take_of_le hm
  unfold insertAt
  rw [List.append_assoc, List.getElem?_append_right (le_of_eq ht), ht]
  simp

theorem insertAt_getElem_lt {α : Type} (l : List α) (m : Nat) (x : α)
    (j : Nat) (hj : j < m) (hm : m ≤ l.length) :
    (insertAt l m x)[j]? = l[j]? := by
  have ht : (l.take m).length = m := List.length_take_of_le hm
  unfold insertAt
  rw [List.append_assoc, List.getElem?_append_left (by rw [ht]; exact hj),
    List.getElem?_take, if_pos hj]

theorem insertAt_getElem_ge {α : Type} (l : List α) (m : Nat) (x : α)
    (j : Nat) (hj : m ≤ j) (hm : m ≤ l.length) :
    (insertAt l m x)[j + 1]? = l[j]? := by
  have ht : (l.take m).length = m := List.length_take_of_le hm
  unfold insertAt
  rw [List.append_assoc, List.getElem?_append_right (by rw [ht]; omega), ht]
  have hidx : j + 1 - m = (j - m) + 1 := by omega
  rw [hidx]
  show (List.cons x (l.drop m))[(j - m) + 1]? = l[j]?
  rw [List.getElem?_cons_succ, List.getElem?_drop]
  congr 1
  omega

theorem balance_gatherv_counts_length (ntask nworker : Int) :
    (balance_gatherv ntask nworker).1.length = nworker.toNat := by
  unfold balance_gatherv
  dsimp only
  rw [List.length_map, List.length_range]

theorem balance_gatherv_offsets_length (ntask nworker : Int) :
    (balance_gatherv ntask nworker).2.length = nworker.toNat := by
  unfold balance_gatherv
  dsimp only
  rw [List.length_dropLast, scanl_length, List.length_map, List.length_range]
  omega

/-- C5 (amended to `managerrank < nworker`):
`balance_gatherv_skipmanager` returns the `balance_gatherv` table with a
zero count inserted at position `managerrank` and the offset at that
position duplicated: the resulting table has length `nworker + 1`, a
zero-count entry at `managerrank` whose offset equals the raw offset
there, entries below `managerrank` unchanged, and entries above shifted
up by one from the non-skipping partition. -/
theorem balance_gatherv_skipmanager_inserts (ntask nworker : Int) (m : Nat)
    (_hn : 0 ≤ ntask) (hw : 1 ≤ nworker) (hm : (m : Int) < nworker) :
    balance_gatherv_skipmanager ntask nworker m =
      some (insertAt (balance_gatherv ntask nworker).1 m 0,
            insertAt (balance_gatherv ntask nworker).2 m
              ((balance_gatherv ntask nworker).2.getD m 0)) ∧
    (insertAt (balance_gatherv ntask nworker).1 m 0).length =
      nworker.toNat + 1 ∧
    (insertAt (balance_gatherv ntask nworker).2 m
      ((balance_gatherv ntask nworker).2.getD m 0)).length =
      nworker.toNat + 1 ∧
    (insertAt (balance_gatherv ntask nworker).1 m 0)[m]? = some 0 ∧
    (insertAt (balance_gatherv ntask nworker).2 m
      ((balance_gatherv ntask nworker).2.getD m 0))[m]? =
      (balance_gatherv ntask nworker).2[m]? ∧
    (∀ j, j < m →
      (insertAt (balance_gatherv ntask nworker).1 m 0)[j]? =
        (balance_gatherv ntask nworker).1[j]? ∧
      (insertAt (balance_gatherv ntask nworker).2 m
        ((balance_gatherv ntask nworker).2.getD m 0))[j]? =
        (balance_gatherv ntask nworker).2[j]?) ∧
    (∀ j, m ≤ j →
      (insertAt (balance_gatherv ntask nworker).1 m 0)[j + 1]? =
        (balance_gatherv ntask nworker).1[j]? ∧
      (insertAt (balance_gatherv ntask nworker).2 m
        ((balance_gatherv ntask nworker).2.getD m 0))[j + 1]? =
        (balance_gatherv ntask nworker).2[j]?) := by
  have hw0 : (0 : Int) ≤ nworker := le_trans zero_le_one hw
  have hmlen : m < nworker.toNat := by omega
  have hc : (balance_gatherv ntask nworker).1.length = nworker.toNat :=
    balance_gatherv_counts_length ntask nworker
  have ho : (balance_gatherv ntask nworker).2.length = nworker.toNat :=
    balance_gatherv_offsets_length ntask nworker
  have hmo : m < (balance_gatherv ntask nworker).2.length := by omega
  have hmc : m ≤ (balance_gatherv ntask nworker).1.length := by omega
  have hsome : (balance_gatherv ntask nworker).2[m]? =
      some ((balance_gatherv ntask nworker).2.getD m 0) := by
    rw [List.getElem?_eq_getElem hmo, List.getD_eq_getElem _ _ hmo]
  refine ⟨?_, ?_, ?_, ?_, ?_, ?_, ?_⟩
  · unfold balance_gatherv_skipmanager
    dsimp only
    rw [hsome]
    rfl
  · rw [insertAt_length _ _ _ hmc, hc]
  · rw [insertAt_length _ _ _ (le_of_lt hmo), ho]
  · exact insertAt_getElem_self _ _ _ hmc
  · rw [insertAt_getElem_self _ _ _ (le_of_lt hmo), hsome]
  · intro j hj
    exact ⟨insertAt_getElem_lt _ _ _ _ hj hmc,
      insertAt_getElem_lt _ _ _ _ hj (le_of_lt hmo)⟩
  · intro j hj
    exact ⟨insertAt_getElem_ge _ _ _ _ hj hmc,
      insertAt_getElem_ge _ _ _ _ hj (le_of_lt hmo)⟩

/-- Counterexample to C5 as stated: at `ntask = 10`, `nworker = 3`,
`managerrank = 3` (the top of the claimed closed range `[0, nworker]`),
the Python code raises `IndexError` on `rawoffsets[managerrank]` instead
of returning the inserted table — the model returns `none` there. -/
theorem balance_gatherv_skipmanager_oob :
    balance_gatherv_skipmanager 10 3 3 = none := by decide

/-- Witness for the amended C5 at `ntask = 10`, `nworker = 3`,
`managerrank = 0`. -/
theorem balance_gatherv_skipmanager_inserts_witness :
    (0 : Int) ≤ 10 ∧ (1 : Int) ≤ 3 ∧ (((0 : Nat) : Int) < 3) ∧
    balance_gatherv_skipmanager 10 3 0 =
      some (insertAt (balance_gatherv 10 3).1 0 0,
            insertAt (balance_gatherv 10 3).2 0
              ((balance_gatherv 10 3).2.getD 0 0)) :=
  ⟨by decide, by decide, by decide,
    (balance_gatherv_skipmanager_inserts 10 3 0 (by decide) (by decide)
      (by decide)).1⟩

/-! ## Theorems: session construction, confinement, role dispatch -/

/-- C6: when the process-group size is at most 1, session construction
fails with the `RuntimeError("No workers")` on every participating
process (any rank), returning an error that carries no session fields —
no partition table, worker id or buffer is set up. -/
theorem initSession_no_workers (size rank : Int) (ins_size work_size : Nat)
    (manager_rank tag_data : Int) (h : size ≤ 1) :
    initSession size rank ins_size work_size manager_rank tag_data =
      .error "No workers" := by
  unfold initSession
  rw [if_pos h]

/-- Witness for C6 at `size = 1`. -/
theorem initSession_no_workers_witness :
    (1 : Int) ≤ 1 ∧
    initSession 1 0 3 10 0 0xda7a = .error "No workers" :=
  ⟨by decide, initSession_no_workers 1 0 3 10 0 0xda7a (by decide)⟩

/-- C8: the `confineto` wrapper returns the wrapped function's result
when the rank predicate holds at the current rank; when it fails it
returns the substitute's result if a callable substitute was supplied and
`None` if not; and the default predicate (when `rankpredicate` is `None`)
is satisfied exactly by the manager rank. -/
theorem confineto_spec {α β : Type} (self_rank manager_rank : Int)
    (function : α → β) (p : Int → Bool) (otherwise : Option (α → β))
    (g : α → β) (args : α) :
    (p self_rank = true →
      confineto self_rank manager_rank function (some p) otherwise args =
        some (function args)) ∧
    (p self_rank = false →
      confineto self_rank manager_rank function (some p) (some g) args =
        some (g args)) ∧
    (p self_rank = false →
      confineto self_rank manager_rank function (some p) none args = none) ∧
    (confineto self_rank manager_rank function none otherwise args =
      confineto self_rank manager_rank function
        (some (fun rank => rank == manager_rank)) otherwise args) := by
  refine ⟨fun h => ?_, fun h => ?_, fun h => ?_, ?_⟩
  · simp [confineto, h]
  · simp [confineto, h]
  · simp [confineto, h]
  · rfl

/-- Witness for C8: default-predicate wrapper on the manager rank runs
the wrapped function. -/
theorem confineto_spec_witness :
    ((fun rank => rank == (0 : Int)) 0 = true) ∧
    confineto 0 0 (fun n : Int => n + 1)
      (some (fun rank => rank == (0 : Int))) none 5 = some 6 :=
  ⟨rfl,
    (confineto_spec 0 0 (fun n : Int => n + 1)
      (fun rank => rank == (0 : Int)) none (fun n => n) 5).1 rfl⟩

/-- C10: on a process whose role is Worker (`ismanager = false`), `eval`
returns `(None, None)` leaving the buffers untouched and performing no
broadcast, and `terminate` performs no broadcast: worker-side invocation
of the manager operations is a silent no-op, not an error. -/
theorem eval_terminate_worker_noop {ι : Type} (s : Session) (st : MgrState)
    (ins : List Val) (interlude : Option (Unit → ι)) (msgs : List Msg)
    (h : s.ismanager = false) :
    eval s st ins interlude msgs = ((none, none), st, []) ∧
    terminate s = [] := by
  unfold eval terminate
  simp [h]

/-- Witness for C10 on a concrete worker session (rank 1, manager rank 0,
two processes). -/
theorem eval_terminate_worker_noop_witness :
    sessionW.ismanager = false ∧
    (eval sessionW { res_buf := [Val.num 0, Val.num 0], recvbuf := [Val.num 0] }
        [Val.num 3] (none : Option (Unit → Unit)) [] =
      ((none, none),
        { res_buf := [Val.num 0, Val.num 0], recvbuf := [Val.num 0] }, []) ∧
      terminate sessionW = []) :=
  ⟨rfl,
    eval_terminate_worker_noop sessionW
      { res_buf := [Val.num 0, Val.num 0], recvbuf := [Val.num 0] }
      [Val.num 3] (none : Option (Unit → Unit)) [] rfl⟩

/-- Counterexample to C4 as stated: on a reachable manager session
(`initSession 2 0 ...`), supplying the all-NaN instruction to `eval`
raises no error — the sentinel is broadcast to the workers exactly like a
normal round. -/
theorem eval_allnan_not_rejected :
    initSession 2 0 2 0 0 0xda7a = .ok sessionM ∧
    allNaN [Val.nan, Val.nan] = true ∧
    (eval sessionM { res_buf := [], recvbuf := [] } [Val.nan, Val.nan]
        (none : Option (Unit → Unit)) []).2.2 = [[Val.nan, Val.nan]] :=
  ⟨rfl, by decide, by decide⟩

/-- C4 amended: `eval` performs no all-NaN validation — on the manager it
broadcasts the instruction unconditionally, the all-NaN sentinel included
(pass-through behavior), and returns normally rather than failing. -/
theorem eval_broadcasts_allnan {ι : Type} (s : Session) (st : MgrState)
    (ins : List Val) (interlude : Option (Unit → ι)) (msgs : List Msg)
    (hm : s.ismanager = true) (_hnan : allNaN ins = true) :
    (eval s st ins interlude msgs).2.2 = [ins] := by
  unfold eval manager
  simp [hm]

/-- Witness for the amended C4 at a concrete all-NaN instruction. -/
theorem eval_broadcasts_allnan_witness :
    sessionM.ismanager = true ∧
    allNaN [Val.nan] = true ∧
    (eval sessionM { res_buf := [], recvbuf := [] } [Val.nan]
        (none : Option (Unit → Unit)) []).2.2 = [[Val.nan]] :=
  ⟨rfl, by decide,
    eval_broadcasts_allnan sessionM { res_buf := [], recvbuf := [] } [Val.nan]
      (none : Option (Unit → Unit)) [] rfl (by decide)⟩

/-! ## Theorems: the worker loop -/

/-- C3: the worker loop consumes one broadcast instruction per iteration;
every non-sentinel instruction makes it invoke the callback on
`(instruction, data[mylow:myhigh])` and send the result to the manager
rank tagged with the session data tag, and the first all-NaN instruction
makes the loop exit normally without sending a reply for it: on a stream
consisting of non-NaN instructions followed by a sentinel, the loop
returns exactly the replies for the non-NaN prefix, in order. -/
theorem workerLoopRun_spec (cb : List Val → List Val → List Val)
    (data : List Val) (mylow myhigh manager_rank tag_data : Int)
    (pre : List (List Val)) (sent : List Val) (rest : List (List Val))
    (hpre : ∀ ins ∈ pre, allNaN ins = false) (hsent : allNaN sent = true) :
    workerLoopRun cb data mylow myhigh manager_rank tag_data
        (pre ++ sent :: rest) =
      some (pre.map (fun ins =>
        { dest := manager_rank, tag := tag_data,
          payload := cb ins (pySlice data mylow myhigh) })) := by
  induction pre with
  | nil => simp [workerLoopRun, hsent]
  | cons x xs ih =>
      have hx : allNaN x = false := hpre x (by simp)
      have ihx := ih (fun ins h => hpre ins (by simp [h]))
      simp [workerLoopRun, hx, ihx]

/-- Witness for C3: one work instruction then the sentinel, identity-like
callback. -/
theorem workerLoopRun_spec_witness :
    (∀ ins ∈ [[Val.num 1]], allNaN ins = false) ∧
    allNaN [Val.nan] = true ∧
    workerLoopRun (fun _ d => d) [Val.num 7, Val.num 8] 0 1 0 0xda7a
        ([[Val.num 1]] ++ [Val.nan] :: []) =
      some ([[Val.num 1]].map (fun ins =>
        { dest := 0, tag := 0xda7a,
          payload := (fun _ d => d) ins
            (pySlice [Val.num 7, Val.num 8] 0 1) })) :=
  ⟨by decide, by decide,
    workerLoopRun_spec (fun _ d => d) [Val.num 7, Val.num 8] 0 1 0 0xda7a
      [[Val.num 1]] [Val.nan] [] (by decide) (by decide)⟩

/-! ## Theorems: buffer surgery -/

theorem setSlice_length (buf pay : List Val) (sl : Nat)
    (h : sl + pay.length ≤ buf.length) :
    (setSlice buf sl pay).length = buf.length := by
  simp [setSlice]
  omega

theorem extract_getElem (buf : List Val) (lo len j : Nat) :
    (extract buf lo len)[j]? = if j < len then buf[lo + j]? else none := by
  unfold extract
  rw [List.getElem?_take]
  by_cases hj : j < len
  · rw [if_pos hj, if_pos hj, List.getElem?_drop]
  · rw [if_neg hj, if_neg hj]

theorem setSlice_getElem_outside (buf pay : List Val) (sl k : Nat)
    (hb : sl + pay.length ≤ buf.length)
    (hk : k < sl ∨ sl + pay.length ≤ k) :
    (setSlice buf sl pay)[k]? = buf[k]? := by
  have ht : (buf.take sl).length = sl := List.length_take_of_le (by omega)
  unfold setSlice
  rcases hk with hk | hk
  · have h1 : k < (buf.take sl ++ pay).length := by
      rw [List.length_append, ht]
      omega
    rw [List.getElem?_append_left h1,
      List.getElem?_append_left (by rw [ht]; exact hk),
      List.getElem?_take, if_pos hk]
  · have h1 : (buf.take sl ++ pay).length ≤ k := by
      rw [List.length_append, ht]
      omega
    rw [List.getElem?_append_right h1, List.length_append, ht,
      List.getElem?_drop]
    congr 1
    omega

theorem extract_setSlice_self (buf pay : List Val) (sl : Nat)
    (h : sl + pay.length ≤ buf.length) :
    extract (setSlice buf sl pay) sl pay.length = pay := by
  have ht : (buf.take sl).length = sl := List.length_take_of_le (by omega)
  unfold extract setSlice
  rw [List.append_assoc, List.drop_left' ht, List.take_left' rfl]

theorem extract_setSlice_disjoint (buf pay : List Val) (sl lo len : Nat)
    (hb : sl + pay.length ≤ buf.length)
    (hdisj : sl + pay.length ≤ lo ∨ lo + len ≤ sl) :
    extract (setSlice buf sl pay) lo len = extract buf lo len := by
  apply List.ext_getElem?
  intro j
  rw [extract_getElem, extract_getElem]
  by_cases hj : j < len
  · rw [if_pos hj, if_pos hj]
    exact setSlice_getElem_outside buf pay sl (lo + j) hb (by omega)
  · rw [if_neg hj, if_neg hj]

/-! ## Theorems: the manager receive loop -/

theorem chunk_le_first (n nw i : Nat) :
    Lb n nw (i + 1) - Lb n nw i ≤ Lb n nw 1 := by
  have h0 := Lb_succ n nw 0
  have hiT := Lb_succ n nw i
  rw [Lb_zero] at h0
  rw [Nat.zero_add, Nat.zero_add] at h0
  by_cases hir : i < n % nw
  · have h0r : 0 < n % nw := by omega
    rw [if_pos hir] at hiT
    rw [if_pos h0r] at h0
    omega
  · rw [if_neg hir] at hiT
    by_cases h0r : 0 < n % nw
    · rw [if_pos h0r] at h0
      omega
    · rw [if_neg h0r] at h0
      omega

theorem rankToWorkerId_workerRank (mr : Int) (i : Nat) :
    rankToWorkerId (workerRank mr i) mr = (i : Int) := by
  unfold rankToWorkerId workerRank
  by_cases h : (i : Int) < mr
  · rw [if_pos h, if_neg (by omega)]
    omega
  · rw [if_neg h, if_pos (by omega)]
    omega

theorem sliceTable_getD (n nw i : Nat) (hi : i < nw) :
    (sliceTable n (nw : Int)).getD i (0, 0) =
      ((Lb n nw i : Int), (Lb n nw (i + 1) : Int)) := by
  unfold sliceTable
  have hnat : ((nw : Int)).toNat = nw := Int.toNat_natCast nw
  rw [hnat, List.getD_eq_getElem?_getD, List.getElem?_map,
    List.getElem?_range hi]
  simp only [Option.map_some', Option.getD_some]
  exact balance_eq_Lb n nw i hi

theorem managerStep_worker (n nw : Nat) (mr : Int) (i : Nat) (hi : i < nw)
    (pay : List Val) (hlen : pay.length = Lb n nw (i + 1) - Lb n nw i)
    (st : MgrState) (hrecv : st.recvbuf.length = Lb n nw 1) :
    managerStep mr (sliceTable n (nw : Int)) st
        { source := workerRank mr i, payload := pay } =
      { res_buf := setSlice st.res_buf (Lb n nw i) pay
        recvbuf := pay ++ st.recvbuf.drop pay.length } := by
  have hsz : pay.length ≤ st.recvbuf.length := by
    rw [hrecv, hlen]
    exact chunk_le_first n nw i
  unfold managerStep writeInto
  dsimp only
  rw [rankToWorkerId_workerRank, Int.toNat_natCast, sliceTable_getD n nw i hi]
  dsimp only
  rw [List.take_of_length_le hsz]
  have hdiff : (((Lb n nw (i + 1) : Nat) : Int) - ((Lb n nw i : Nat) : Int)).toNat
      = pay.length := by
    rw [hlen]
    have := Lb_mono n nw (Nat.le_add_right i 1)
    omega
  rw [hdiff, List.take_left' rfl, Int.toNat_natCast]

theorem managerStep_worker_lengths (n nw : Nat) (hnw : 1 ≤ nw) (mr : Int)
    (i : Nat) (hi : i < nw)
    (pay : List Val) (hlen : pay.length = Lb n nw (i + 1) - Lb n nw i)
    (st : MgrState) (hres : st.res_buf.length = n)
    (hrecv : st.recvbuf.length = Lb n nw 1) :
    (managerStep mr (sliceTable n (nw : Int)) st
        { source := workerRank mr i, payload := pay }).res_buf.length = n ∧
    (managerStep mr (sliceTable n (nw : Int)) st
        { source := workerRank mr i, payload := pay }).recvbuf.length =
      Lb n nw 1 := by
  rw [managerStep_worker n nw mr i hi pay hlen st hrecv]
  have hmono := Lb_mono n nw (Nat.le_add_right i 1)
  have hn := Lb_le_n n nw (i + 1) hnw hi
  have hfit : Lb n nw i + pay.length ≤ st.res_buf.length := by
    rw [hres, hlen]
    omega
  constructor
  · dsimp only
    rw [setSlice_length _ _ _ hfit, hres]
  · dsimp only
    rw [List.length_append, List.length_drop]
    have hsz : pay.length ≤ st.recvbuf.length := by
      rw [hrecv, hlen]
      exact chunk_le_first n nw i
    omega

theorem managerLoop_preserves (n nw : Nat) (hnw : 1 ≤ nw) (mr : Int)
    (p : Nat → List Val)
    (hp : ∀ j, j < nw → (p j).length = Lb n nw (j + 1) - Lb n nw j) :
    ∀ (msgs : List Msg), (∀ m ∈ msgs, wfMsg nw mr p m) →
    ∀ st : MgrState, st.res_buf.length = n → st.recvbuf.length = Lb n nw 1 →
      ((managerLoop mr (sliceTable n (nw : Int)) st msgs).res_buf.length = n ∧
       (managerLoop mr (sliceTable n (nw : Int)) st msgs).recvbuf.length =
         Lb n nw 1) ∧
      ∀ i, i < nw →
        (∀ m ∈ msgs, rankToWorkerId m.source mr ≠ (i : Int)) →
        extract (managerLoop mr (sliceTable n (nw : Int)) st msgs).res_buf
            (Lb n nw i) (Lb n nw (i + 1) - Lb n nw i) =
          extract st.res_buf (Lb n nw i) (Lb n nw (i + 1) - Lb n nw i) := by
  intro msgs
  induction msgs with
  | nil =>
      intro _ st h1 h2
      exact ⟨⟨h1, h2⟩, fun i _ _ => rfl⟩
  | cons m rest ih =>
      intro hwf st hres hrecv
      obtain ⟨j, hj, hm⟩ := hwf m (List.mem_cons_self m rest)
      subst hm
      have hlenj := hp j hj
      have hlens := managerStep_worker_lengths n nw hnw mr j hj (p j) hlenj
        st hres hrecv
      have hloop : managerLoop mr (sliceTable n (nw : Int)) st
          ({ source := workerRank mr j, payload := p j } :: rest) =
        managerLoop mr (sliceTable n (nw : Int))
          (managerStep mr (sliceTable n (nw : Int)) st
            { source := workerRank mr j, payload := p j }) rest := rfl
      rw [hloop]
      have ihr := ih (fun x hx => hwf x (List.mem_cons_of_mem _ hx))
        (managerStep mr (sliceTable n (nw : Int)) st
          { source := workerRank mr j, payload := p j })
        hlens.1 hlens.2
      refine ⟨ihr.1, ?_⟩
      intro i hi hnoti
      have hji : j ≠ i := by
        have hne := hnoti _ (List.mem_cons_self _ _)
        rw [rankToWorkerId_workerRank] at hne
        intro hcon
        exact hne (by rw [hcon])
      rw [ihr.2 i hi (fun x hx => hnoti x (List.mem_cons_of_mem _ hx))]
      rw [managerStep_worker n nw mr j hj (p j) hlenj st hrecv]
      dsimp only
      apply extract_setSlice_disjoint
      · have := Lb_mono n nw (Nat.le_add_right j 1)
        have := Lb_le_n n nw (j + 1) hnw hj
        rw [hres, hlenj]
        omega
      · have hmono_j := Lb_mono n nw (Nat.le_add_right j 1)
        have hmono_i := Lb_mono n nw (Nat.le_add_right i 1)
        rcases Nat.lt_or_ge j i with hlt | hge
        · left
          have : Lb n nw (j + 1) ≤ Lb n nw i := Lb_mono n nw hlt
          omega
        · right
          have hij : i < j := by omega
          have : Lb n nw (i + 1) ≤ Lb n nw j := Lb_mono n nw hij
          omega

theorem managerLoop_writes (n nw : Nat) (hnw : 1 ≤ nw) (mr : Int)
    (p : Nat → List Val)
    (hp : ∀ j, j < nw → (p j).length = Lb n nw (j + 1) - Lb n nw j)
    (i : Nat) (hi : i < nw) (l1 l2 : List Msg)
    (h1 : ∀ m ∈ l1, wfMsg nw mr p m)
    (h2 : ∀ m ∈ l2, wfMsg nw mr p m)
    (h2i : ∀ m ∈ l2, rankToWorkerId m.source mr ≠ (i : Int))
    (st : MgrState) (hres : st.res_buf.length = n)
    (hrecv : st.recvbuf.length = Lb n nw 1) :
    extract (managerLoop mr (sliceTable n (nw : Int)) st
        (l1 ++ { source := workerRank mr i, payload := p i } :: l2)).res_buf
      (Lb n nw i) (Lb n nw (i + 1) - Lb n nw i) = p i := by
  have hpre := managerLoop_preserves n nw hnw mr p hp l1 h1 st hres hrecv
  have happ : managerLoop mr (sliceTable n (nw : Int)) st
      (l1 ++ { source := workerRank mr i, payload := p i } :: l2) =
    managerLoop mr (sliceTable n (nw : Int))
      (managerStep mr (sliceTable n (nw : Int))
        (managerLoop mr (sliceTable n (nw : Int)) st l1)
        { source := workerRank mr i, payload := p i }) l2 := by
    unfold managerLoop
    rw [List.foldl_append]
    rfl
  rw [happ]
  have hlst1 := hpre.1
  have hlens2 := managerStep_worker_lengths n nw hnw mr i hi (p i) (hp i hi)
    _ hlst1.1 hlst1.2
  have hloop2 := managerLoop_preserves n nw hnw mr p hp l2 h2
    (managerStep mr (sliceTable n (nw : Int))
      (managerLoop mr (sliceTable n (nw : Int)) st l1)
      { source := workerRank mr i, payload := p i })
    hlens2.1 hlens2.2
  rw [hloop2.2 i hi h2i]
  rw [managerStep_worker n nw mr i hi (p i) (hp i hi) _ hlst1.2]
  dsimp only
  have hfit : Lb n nw i + (p i).length ≤
      (managerLoop mr (sliceTable n (nw : Int)) st l1).res_buf.length := by
    have := Lb_mono n nw (Nat.le_add_right i 1)
    have := Lb_le_n n nw (i + 1) hnw hi
    rw [hlst1.1, hp i hi]
    omega
  rw [show Lb n nw (i + 1) - Lb n nw i = (p i).length from (hp i hi).symm]
  exact extract_setSlice_self _ _ _ hfit

theorem canonical_wf (nw : Nat) (mr : Int) (p : Nat → List Val) :
    ∀ m ∈ (List.range nw).map
      (fun j => ({ source := workerRank mr j, payload := p j } : Msg)),
      wfMsg nw mr p m := by
  intro m hm
  obtain ⟨j, hj, rfl⟩ := List.mem_map.mp hm
  exact ⟨j, List.mem_range.mp hj, rfl⟩

theorem canonical_countP (nw : Nat) (mr : Int) (p : Nat → List Val) (i : Nat)
    (hi : i < nw) :
    ((List.range nw).map
      (fun j => ({ source := workerRank mr j, payload := p j } : Msg))).countP
      (fun m => rankToWorkerId m.source mr == (i : Int)) = 1 := by
  rw [List.countP_map]
  have hcong : ∀ j ∈ List.range nw,
      (((fun m => rankToWorkerId m.source mr == (i : Int)) ∘
        (fun j => ({ source := workerRank mr j, payload := p j } : Msg))) j
          = true) ↔
      ((fun j => j == i) j = true) := by
    intro j _
    simp only [Function.comp]
    rw [rankToWorkerId_workerRank]
    constructor
    · intro h
      have : (j : Int) = (i : Int) := by exact_mod_cast beq_iff_eq.mp h
      exact beq_iff_eq.mpr (by exact_mod_cast this)
    · intro h
      have : j = i := beq_iff_eq.mp h
      exact beq_iff_eq.mpr (by exact_mod_cast this)
  rw [List.countP_congr hcong, ← List.count_eq_countP]
  exact List.count_eq_one_of_mem (List.nodup_range nw) (List.mem_range.mpr hi)

theorem managerLoop_assembles (n nw : Nat) (hnw : 1 ≤ nw) (mr : Int)
    (p : Nat → List Val)
    (hp : ∀ j, j < nw → (p j).length = Lb n nw (j + 1) - Lb n nw j)
    (st : MgrState) (hres : st.res_buf.length = n)
    (hrecv : st.recvbuf.length = Lb n nw 1)
    (msgs : List Msg)
    (hperm : msgs.Perm ((List.range nw).map
      (fun j => { source := workerRank mr j, payload := p j })))
    (i : Nat) (hi : i < nw) :
    extract (managerLoop mr (sliceTable n (nw : Int)) st msgs).res_buf
      (Lb n nw i) (Lb n nw (i + 1) - Lb n nw i) = p i := by
  have hwf : ∀ m ∈ msgs, wfMsg nw mr p m := fun m hm =>
    canonical_wf nw mr p m (hperm.subset hm)
  have hmemi : ({ source := workerRank mr i, payload := p i } : Msg) ∈ msgs := by
    apply hperm.mem_iff.mpr
    exact List.mem_map_of_mem _ (List.mem_range.mpr hi)
  obtain ⟨l1, l2, hsplit⟩ := List.append_of_mem hmemi
  subst hsplit
  have hcount := hperm.countP_eq
    (fun m => rankToWorkerId m.source mr == (i : Int))
  rw [canonical_countP nw mr p i hi, List.countP_append] at hcount
  have hmi : (fun m => rankToWorkerId m.source mr == (i : Int))
      ({ source := workerRank mr i, payload := p i } : Msg) = true := by
    dsimp only
    rw [rankToWorkerId_workerRank]
    exact beq_iff_eq.mpr rfl
  have hstep : ({ source := workerRank mr i, payload := p i } :: l2).countP
      (fun m => rankToWorkerId m.source mr == (i : Int)) =
      l2.countP (fun m => rankToWorkerId m.source mr == (i : Int)) + 1 :=
    List.countP_cons_of_pos _ _ hmi
  rw [hstep] at hcount
  have hl2 : ∀ m ∈ l2, rankToWorkerId m.source mr ≠ (i : Int) := by
    intro m hm hcon
    have hz : l2.countP
        (fun m => rankToWorkerId m.source mr == (i : Int)) = 0 := by omega
    rw [List.countP_eq_zero] at hz
    exact hz m hm (by rw [hcon]; exact beq_iff_eq.mpr rfl)
  exact managerLoop_writes n nw hnw mr p hp i hi l1 l2
    (fun m hm => hwf m (List.mem_append_left _ hm))
    (fun m hm => hwf m (List.mem_append_right _ (List.mem_cons_of_mem _ hm)))
    hl2 st hres hrecv

theorem eq_of_slices (n nw : Nat) (hnw : 1 ≤ nw) (b1 b2 : List Val)
    (h1 : b1.length = n) (h2 : b2.length = n)
    (hs : ∀ i, i < nw →
      extract b1 (Lb n nw i) (Lb n nw (i + 1) - Lb n nw i) =
      extract b2 (Lb n nw i) (Lb n nw (i + 1) - Lb n nw i)) :
    b1 = b2 := by
  apply List.ext_getElem?
  intro k
  by_cases hk : k < n
  · obtain ⟨i, hi, hk1, hk2⟩ := exists_cell (Lb n nw) nw k
      (by rw [Lb_zero]; omega) (by rw [Lb_last n nw hnw]; omega)
    have hmono := Lb_mono n nw (Nat.le_add_right i 1)
    have hx := congrArg (fun l => l[k - Lb n nw i]?) (hs i hi)
    simp only [extract_getElem] at hx
    have hcond : k - Lb n nw i < Lb n nw (i + 1) - Lb n nw i := by omega
    have harg : Lb n nw i + (k - Lb n nw i) = k := by omega
    simp only [if_pos hcond, harg] at hx
    exact hx
  · rw [List.getElem?_eq_none (by omega), List.getElem?_eq_none (by omega)]

/-- C2: after the manager's receive loop has consumed exactly `nWorkers`
tagged replies — one sent from each worker's rank, arriving in any order
(any permutation) — the result buffer holds worker `i`'s payload exactly
on that worker's slice `[Lb i, Lb (i+1))`, the bounds recorded in the
partition table, where a reply's source rank `r` is mapped back to
worker-id `r - 1` if `r > managerRank` and `r` otherwise; and the final
result buffer is the same for every arrival order. -/
theorem manager_gather_spec (n nw : Nat) (hnw : 1 ≤ nw) (mr : Int)
    (p : Nat → List Val)
    (hp : ∀ j, j < nw → (p j).length = Lb n nw (j + 1) - Lb n nw j)
    (st : MgrState) (hres : st.res_buf.length = n)
    (hrecv : st.recvbuf.length = Lb n nw 1)
    (msgs : List Msg)
    (hperm : msgs.Perm ((List.range nw).map
      (fun j => { source := workerRank mr j, payload := p j }))) :
    (∀ i, i < nw →
      (sliceTable n (nw : Int)).getD i (0, 0) =
        ((Lb n nw i : Int), (Lb n nw (i + 1) : Int)) ∧
      extract (managerLoop mr (sliceTable n (nw : Int)) st msgs).res_buf
        (Lb n nw i) (Lb n nw (i + 1) - Lb n nw i) = p i) ∧
    (∀ msgs2, msgs2.Perm msgs →
      (managerLoop mr (sliceTable n (nw : Int)) st msgs2).res_buf =
        (managerLoop mr (sliceTable n (nw : Int)) st msgs).res_buf) := by
  constructor
  · intro i hi
    exact ⟨sliceTable_getD n nw i hi,
      managerLoop_assembles n nw hnw mr p hp st hres hrecv msgs hperm i hi⟩
  · intro msgs2 hp2
    have hperm2 := hp2.trans hperm
    have hwf : ∀ m ∈ msgs, wfMsg nw mr p m := fun m hm =>
      canonical_wf nw mr p m (hperm.subset hm)
    have hwf2 : ∀ m ∈ msgs2, wfMsg nw mr p m := fun m hm =>
      canonical_wf nw mr p m (hperm2.subset hm)
    apply eq_of_slices n nw hnw
    · exact ((managerLoop_preserves n nw hnw mr p hp msgs2 hwf2
        st hres hrecv).1).1
    · exact ((managerLoop_preserves n nw hnw mr p hp msgs hwf
        st hres hrecv).1).1
    · intro i hi
      rw [managerLoop_assembles n nw hnw mr p hp st hres hrecv msgs2 hperm2
          i hi,
        managerLoop_assembles n nw hnw mr p hp st hres hrecv msgs hperm i hi]

/-- Witness for C2: three tasks over two workers (slices `[0,2)` and
`[2,3)`), replies arriving in reversed order; worker 0's slice of the
final buffer is worker 0's payload. -/
theorem manager_gather_spec_witness :
    1 ≤ 2 ∧
    (∀ j, j < 2 → (([[Val.num 10, Val.num 11], [Val.num 12]].getD j []).length
      = Lb 3 2 (j + 1) - Lb 3 2 j)) ∧
    ([Val.num 0, Val.num 0, Val.num 0] : List Val).length = 3 ∧
    ([Val.num 0, Val.num 0] : List Val).length = Lb 3 2 1 ∧
    ([{ source := 2, payload := [Val.num 12] },
      { source := 1, payload := [Val.num 10, Val.num 11] }] : List Msg).Perm
      ((List.range 2).map (fun j =>
        { source := workerRank 0 j
          payload := [[Val.num 10, Val.num 11], [Val.num 12]].getD j [] })) ∧
    extract (managerLoop 0 (sliceTable 3 (2 : Int))
        { res_buf := [Val.num 0, Val.num 0, Val.num 0]
          recvbuf := [Val.num 0, Val.num 0] }
        [{ source := 2, payload := [Val.num 12] },
         { source := 1, payload := [Val.num 10, Val.num 11] }]).res_buf
      (Lb 3 2 0) (Lb 3 2 1 - Lb 3 2 0) =
      [[Val.num 10, Val.num 11], [Val.num 12]].getD 0 [] :=
  ⟨by decide, by decide, by decide, by decide, by decide,
    ((manager_gather_spec 3 2 (by decide) 0
        (fun j => [[Val.num 10, Val.num 11], [Val.num 12]].getD j [])
        (by decide)
        { res_buf := [Val.num 0, Val.num 0, Val.num 0]
          recvbuf := [Val.num 0, Val.num 0] }
        (by decide) (by decide)
        [{ source := 2, payload := [Val.num 12] },
         { source := 1, payload := [Val.num 10, Val.num 11] }]
        (by decide)).1 0 (by decide)).2⟩

/-- C7: for a manager session over a fixed dataset with a pure callback
(worker `j` replies with `callback ins data[Lb j : Lb (j+1)]`), two
`eval` calls with the same instruction return bit-identical result
vectors, whatever the reply arrival orders and whatever the previous
contents of the manager's buffers (which the second call inherits from
the first). -/
theorem eval_pure_deterministic {ι₁ ι₂ : Type} (s : Session) (n nw : Nat)
    (hnw : 1 ≤ nw) (hman : s.ismanager = true)
    (htab : s.slice_table = sliceTable n (nw : Int))
    (cb : List Val → List Val → List Val) (data ins : List Val)
    (hcb : ∀ j, j < nw →
      (cb ins (pySlice data (Lb n nw j) (Lb n nw (j + 1)))).length =
        Lb n nw (j + 1) - Lb n nw j)
    (st1 st2 : MgrState) (hr1 : st1.res_buf.length = n)
    (hb1 : st1.recvbuf.length = Lb n nw 1) (hr2 : st2.res_buf.length = n)
    (hb2 : st2.recvbuf.length = Lb n nw 1)
    (msgs1 msgs2 : List Msg)
    (hm1 : msgs1.Perm ((List.range nw).map (fun j =>
      { source := workerRank s.manager_rank j
        payload := cb ins (pySlice data (Lb n nw j) (Lb n nw (j + 1))) })))
    (hm2 : msgs2.Perm ((List.range nw).map (fun j =>
      { source := workerRank s.manager_rank j
        payload := cb ins (pySlice data (Lb n nw j) (Lb n nw (j + 1))) })))
    (itl1 : Option (Unit → ι₁)) (itl2 : Option (Unit → ι₂)) :
    (eval s st1 ins itl1 msgs1).1.1 = (eval s st2 ins itl2 msgs2).1.1 := by
  unfold eval manager
  rw [if_pos hman, if_pos hman]
  dsimp only
  rw [htab]
  congr 1
  have hwf1 : ∀ m ∈ msgs1, wfMsg nw s.manager_rank
      (fun j => cb ins (pySlice data (Lb n nw j) (Lb n nw (j + 1)))) m :=
    fun m hm => canonical_wf nw s.manager_rank _ m (hm1.subset hm)
  have hwf2 : ∀ m ∈ msgs2, wfMsg nw s.manager_rank
      (fun j => cb ins (pySlice data (Lb n nw j) (Lb n nw (j + 1)))) m :=
    fun m hm => canonical_wf nw s.manager_rank _ m (hm2.subset hm)
  apply eq_of_slices n nw hnw
  · exact ((managerLoop_preserves n nw hnw s.manager_rank
      (fun j => cb ins (pySlice data (Lb n nw j) (Lb n nw (j + 1)))) hcb
      msgs1 hwf1 st1 hr1 hb1).1).1
  · exact ((managerLoop_preserves n nw hnw s.manager_rank
      (fun j => cb ins (pySlice data (Lb n nw j) (Lb n nw (j + 1)))) hcb
      msgs2 hwf2 st2 hr2 hb2).1).1
  · intro i hi
    rw [managerLoop_assembles n nw hnw s.manager_rank
        (fun j => cb ins (pySlice data (Lb n nw j) (Lb n nw (j + 1)))) hcb
        st1 hr1 hb1 msgs1 hm1 i hi,
      managerLoop_assembles n nw hnw s.manager_rank
        (fun j => cb ins (pySlice data (Lb n nw j) (Lb n nw (j + 1)))) hcb
        st2 hr2 hb2 msgs2 hm2 i hi]

/-- Witness for C7: identity-like callback over three items and two
workers; the two calls start from different buffer contents and receive
replies in opposite orders, yet return the same vector. -/
theorem eval_pure_deterministic_witness :
    sessionM3.ismanager = true ∧
    sessionM3.slice_table = sliceTable 3 (2 : Int) ∧
    (∀ j, j < 2 →
      ((fun _ d => d : List Val → List Val → List Val) [Val.num 5]
        (pySlice [Val.num 1, Val.num 2, Val.num 3]
          (Lb 3 2 j) (Lb 3 2 (j + 1)))).length = Lb 3 2 (j + 1) - Lb 3 2 j) ∧
    ([{ source := 1, payload := [Val.num 1, Val.num 2] },
      { source := 2, payload := [Val.num 3] }] : List Msg).Perm
      ((List.range 2).map (fun j =>
        { source := workerRank sessionM3.manager_rank j
          payload := (fun _ d => d : List Val → List Val → List Val)
            [Val.num 5] (pySlice [Val.num 1, Val.num 2, Val.num 3]
              (Lb 3 2 j) (Lb 3 2 (j + 1))) })) ∧
    ([{ source := 2, payload := [Val.num 3] },
      { source := 1, payload := [Val.num 1, Val.num 2] }] : List Msg).Perm
      ((List.range 2).map (fun j =>
        { source := workerRank sessionM3.manager_rank j
          payload := (fun _ d => d : List Val → List Val → List Val)
            [Val.num 5] (pySlice [Val.num 1, Val.num 2, Val.num 3]
              (Lb 3 2 j) (Lb 3 2 (j + 1))) })) ∧
    (eval sessionM3
        { res_buf := [Val.num 0, Val.num 0, Val.num 0]
          recvbuf := [Val.num 0, Val.num 0] }
        [Val.num 5] (none : Option (Unit → Unit))
        [{ source := 1, payload := [Val.num 1, Val.num 2] },
         { source := 2, payload := [Val.num 3] }]).1.1 =
      (eval sessionM3
        { res_buf := [Val.num 9, Val.num 9, Val.num 9]
          recvbuf := [Val.num 8, Val.num 8] }
        [Val.num 5] (none : Option (Unit → Unit))
        [{ source := 2, payload := [Val.num 3] },
         { source := 1, payload := [Val.num 1, Val.num 2] }]).1.1 :=
  ⟨rfl, rfl, by decide, by decide, by decide,
    eval_pure_deterministic sessionM3 3 2 (by decide) rfl rfl
      (fun _ d => d) [Val.num 1, Val.num 2, Val.num 3] [Val.num 5]
      (by decide)
      { res_buf := [Val.num 0, Val.num 0, Val.num 0]
        recvbuf := [Val.num 0, Val.num 0] }
      { res_buf := [Val.num 9, Val.num 9, Val.num 9]
        recvbuf := [Val.num 8, Val.num 8] }
      (by decide) (by decide) (by decide) (by decide)
      [{ source := 1, payload := [Val.num 1, Val.num 2] },
       { source := 2, payload := [Val.num 3] }]
      [{ source := 2, payload := [Val.num 3] },
       { source := 1, payload := [Val.num 1, Val.num 2] }]
      (by decide) (by decide)
      (none : Option (Unit → Unit)) (none : Option (Unit → Unit))⟩

end Parallelvicd
